import Mathlib

/-!
Verification development for the StockSight dashboard's aggregation engine.

The Event Table of src/StockSight.py is embedded as a list of typed rows and
each aggregate the dashboard derives from it (summary totals, monthly totals,
category leaderboards, at-risk products, the daily resample of one user's
purchases, and the date/category filtered cross-tab) is translated into an
executable Lean definition.  `event_time` values are proleptic-Gregorian
calendar instants at minute resolution; pandas timestamp comparisons become
comparisons of the linearised instant, and pandas groupby (which sorts its
keys ascending and drops null keys) becomes dedup-plus-insertionSort over the
non-null keys.  The machine's float division in the at-risk ratio is modelled
by exact rational division.
-/

/-! ## Calendar arithmetic -/

/-- Proleptic Gregorian leap-year test. -/
def isLeap (y : Nat) : Bool :=
  decide ((y % 4 = 0 ∧ ¬ y % 100 = 0) ∨ y % 400 = 0)

/-- Number of leap years strictly before year `y` (years `0, …, y-1`),
    in closed form. -/
def leapsBefore (y : Nat) : Nat :=
  (y + 3) / 4 + (y + 399) / 400 - (y + 99) / 100

/-- Length of month `m` (1–12) in a year whose leap flag is `lp`. -/
def monthLength (lp : Bool) (m : Nat) : Nat :=
  if m = 2 then (if lp then 29 else 28)
  else if m = 4 ∨ m = 6 ∨ m = 9 ∨ m = 11 then 30 else 31

/-- Days in months `1, …, m-1` of a year whose leap flag is `lp`. -/
def monthsBefore (lp : Bool) : Nat → Nat
  | 0 => 0
  | m + 1 => monthsBefore lp m + (if m = 0 then 0 else monthLength lp m)

/-- A calendar date as stored in an `event_time`. -/
structure Date where
  year : Nat
  month : Nat
  day : Nat
  deriving DecidableEq, Repr

/-- The fields describe a real proleptic-Gregorian calendar day. -/
def ValidDate (d : Date) : Prop :=
  1 ≤ d.month ∧ d.month ≤ 12 ∧ 1 ≤ d.day ∧ d.day ≤ monthLength (isLeap d.year) d.month

instance (d : Date) : Decidable (ValidDate d) :=
  inferInstanceAs (Decidable (1 ≤ d.month ∧ d.month ≤ 12 ∧ 1 ≤ d.day
    ∧ d.day ≤ monthLength (isLeap d.year) d.month))

/-- Day number of a date on the linear time line (days since 0000-01-01). -/
def Date.ordinal (d : Date) : Nat :=
  365 * d.year + leapsBefore d.year + monthsBefore (isLeap d.year) d.month + (d.day - 1)

/-- The next calendar day. -/
def Date.succ (d : Date) : Date :=
  if d.day < monthLength (isLeap d.year) d.month then ⟨d.year, d.month, d.day + 1⟩
  else if d.month < 12 then ⟨d.year, d.month + 1, 1⟩
  else ⟨d.year + 1, 1, 1⟩

/-- The calendar day `n` days after `d`. -/
def dateAfter (d : Date) : Nat → Date
  | 0 => d
  | n + 1 => (dateAfter d n).succ

/-- An `event_time`: a calendar day plus a minute-of-day offset. -/
structure Timestamp where
  date : Date
  minute : Nat
  deriving DecidableEq, Repr

/-- Linearised instant (minutes since 0000-01-01 00:00); pandas timestamp
    comparisons are comparisons of this value. -/
def Timestamp.instant (t : Timestamp) : Nat :=
  1440 * t.date.ordinal + t.minute

/-- `pd.to_datetime` applied to a bare date: midnight of that day. -/
def Date.midnight (d : Date) : Nat :=
  1440 * d.ordinal

/-! ## The Event Table -/

/-- One row of the loaded dataframe (after the derived columns are added;
    `main_category` and `year_month` are recomputed from these fields). -/
structure Row where
  event_time : Timestamp
  product_id : Nat
  category_code : Option String
  brand : Option String
  price : ℚ
  user_id : Nat
  view : Nat
  purchase : Nat
  deriving DecidableEq, Repr

/-- The metric selected by the dashboard's display option. -/
inductive Metric
  | view
  | purchase
  deriving DecidableEq, Repr

def metricVal : Metric → Row → Nat
  | .view, r => r.view
  | .purchase, r => r.purchase

def eventDate (r : Row) : Date := r.event_time.date

/-! ## Derived columns (StockSight.py lines 30, 34, 48) -/

/-- Line 30: `df['category_code'].apply(lambda x: x.split('.')[0] if
    pd.notnull(x) else None)` — the per-row `main_category` column. -/
def mainCategoryRow : Option String → Option String
  | none => none
  | some s => some ((s.splitOn (".")).headD (""))

/-- Line 48: `df['category_code'].str.split('.').str[0]` — the extraction the
    `total_categories` statistic is computed from (`.str` propagates nulls). -/
def mainCategoryAgg (c : Option String) : Option String :=
  c.map (fun s => (s.splitOn (".")).headD (""))

/-- Digit character of a single decimal digit. -/
def dChar : Nat → Char
  | 0 => '0'
  | 1 => '1'
  | 2 => '2'
  | 3 => '3'
  | 4 => '4'
  | 5 => '5'
  | 6 => '6'
  | 7 => '7'
  | 8 => '8'
  | 9 => '9'
  | _ + 10 => '?'

/-- Two-digit zero-padded decimal rendering. -/
def pad2 (n : Nat) : List Char :=
  [dChar (n / 10), dChar (n % 10)]

/-- The sortable `YYYY-MM` string `pd.Period('M').astype(str)` produces. -/
def ymString (y m : Nat) : String :=
  ⟨pad2 (y / 100) ++ pad2 (y % 100) ++ '-' :: pad2 m⟩

/-- Line 34: the derived `year_month` column of a row. -/
def year_month (r : Row) : String :=
  ymString r.event_time.date.year r.event_time.date.month

/-! ## Summary statistics (lines 44–49) -/

def total_products (t : List Row) : Nat := ((t.map (·.product_id)).dedup).length

def total_views (t : List Row) : Nat := (t.map (·.view)).sum

def total_purchases (t : List Row) : Nat := (t.map (·.purchase)).sum

def total_brands (t : List Row) : Nat := ((t.filterMap (·.brand)).dedup).length

/-- Line 48: `nunique` of the main-category extraction (nulls dropped). -/
def total_categories (t : List Row) : Nat :=
  ((t.filterMap (fun r => mainCategoryAgg r.category_code)).dedup).length

def total_subcategories (t : List Row) : Nat :=
  ((t.filterMap (·.category_code)).dedup).length

/-! ## Monthly totals (lines 34–35) -/

/-- Line 35: `df.groupby('year_month').agg({'view': 'sum', 'purchase':
    'sum'})` — groupby sorts the string keys ascending. -/
def monthly_data (t : List Row) : List (String × Nat × Nat) :=
  (((t.map year_month).dedup).insertionSort (· ≤ ·)).map (fun s =>
    (s, total_views (t.filter (fun r => decide (year_month r = s))),
        total_purchases (t.filter (fun r => decide (year_month r = s)))))

/-- Chronological lexicographic order on `(year, month)` pairs. -/
def pairLe (a b : Nat × Nat) : Prop :=
  a.1 < b.1 ∨ (a.1 = b.1 ∧ a.2 ≤ b.2)

instance : DecidableRel pairLe := fun a b => by
  unfold pairLe; infer_instance

/-- The spec's reading of monthly totals: the same buckets keyed and ordered
    chronologically by the `(year, month)` pair instead of by the string. -/
def monthly_data_chron (t : List Row) : List (String × Nat × Nat) :=
  (((t.map (fun r => (r.event_time.date.year, r.event_time.date.month))).dedup).insertionSort
      pairLe).map (fun p =>
    (ymString p.1 p.2,
     total_views (t.filter (fun r =>
       decide ((r.event_time.date.year, r.event_time.date.month) = p))),
     total_purchases (t.filter (fun r =>
       decide ((r.event_time.date.year, r.event_time.date.month) = p)))))

/-! ## Product statistics and at-risk products (lines 37–42) -/

def product_ids (t : List Row) : List Nat := (t.map (·.product_id)).dedup

def total_views_of (t : List Row) (p : Nat) : Nat :=
  total_views (t.filter (fun r => decide (r.product_id = p)))

def total_purchases_of (t : List Row) (p : Nat) : Nat :=
  total_purchases (t.filter (fun r => decide (r.product_id = p)))

/-- Line 41: `total_views / (total_purchases + 1)`, as an exact rational. -/
def ratioOf (t : List Row) (p : Nat) : ℚ :=
  (total_views_of t p : ℚ) / ((total_purchases_of t p : ℚ) + 1)

/-- Lines 37–40: group by `product_id`, sum views and purchases. -/
def product_stats (t : List Row) : List (Nat × Nat × Nat) :=
  (product_ids t).map (fun p => (p, total_views_of t p, total_purchases_of t p))

/-- Line 42: keep the products whose ratio is strictly greater than 10. -/
def at_risk_products (t : List Row) : List (Nat × Nat × Nat) :=
  (product_stats t).filter (fun s =>
    decide ((10 : ℚ) < (s.2.1 : ℚ) / ((s.2.2 : ℚ) + 1)))

/-! ## Category leaderboards (lines 146 and 153) -/

/-- Sorted distinct non-null category codes: `groupby('category_code')`
    sorts its keys ascending and drops null keys. -/
def cat_codes (t : List Row) : List String :=
  ((t.filterMap (·.category_code)).dedup).insertionSort (· ≤ ·)

/-- `df.groupby('category_code')[metric].sum()` as a key-ascending list. -/
def cat_agg (t : List Row) (m : Metric) : List (String × Nat) :=
  (cat_codes t).map (fun c =>
    (c, ((t.filter (fun r => decide (r.category_code = some c))).map (metricVal m)).sum))

/-- Descending order on the summed metric. -/
def sndGe {α : Type} (a b : α × Nat) : Prop := b.2 ≤ a.2

instance {α : Type} : DecidableRel (@sndGe α) := fun a b => by
  unfold sndGe; infer_instance

/-- `Series.nlargest(k)`: stable descending selection of the `k` largest. -/
def nlargest (k : Nat) (l : List (String × Nat)) : List (String × Nat) :=
  (l.insertionSort sndGe).take k

/-- Lines 146/153 generalised over the metric and `k` (the source uses 5). -/
def top_categories (t : List Row) (m : Metric) (k : Nat) : List (String × Nat) :=
  nlargest k (cat_agg t m)

/-- The tie-break order the spec mandates: metric sum descending, then
    `category_code` ascending. -/
def lexGe (a b : String × Nat) : Prop :=
  b.2 < a.2 ∨ (a.2 = b.2 ∧ a.1 ≤ b.1)

instance : DecidableRel lexGe := fun a b => by
  unfold lexGe; infer_instance

/-- Modelled from the spec: the full leaderboard sorted by sum descending
    with ties broken by `category_code` ascending. -/
def leaderboard_spec (t : List Row) (m : Metric) : List (String × Nat) :=
  (cat_agg t m).insertionSort lexGe

/-! ## Per-user daily purchase series (lines 170–172) -/

def userRows (t : List Row) (u : Nat) : List Row :=
  t.filter (fun r => decide (r.user_id = u))

/-- Chronologically earliest date among `l`, starting from `d0`. -/
def minDateAux (l : List Row) (d0 : Date) : Date :=
  l.foldl (fun a r => if (eventDate r).ordinal < a.ordinal then eventDate r else a) d0

/-- Chronologically latest date among `l`, starting from `d0`. -/
def maxDateAux (l : List Row) (d0 : Date) : Date :=
  l.foldl (fun a r => if a.ordinal < (eventDate r).ordinal then eventDate r else a) d0

/-- Lines 170–172: filter to one `user_id`, index by `event_time`, resample
    by calendar day: one bucket per day from the earliest to the latest day
    (inclusive), each holding the sum of `purchase` over that day's rows —
    zero when no row falls on the day.  An empty selection resamples to an
    empty frame. -/
def resampleDaily (rows : List Row) (d0 : Date) : List (Date × Nat) :=
  (List.range ((maxDateAux rows d0).ordinal - (minDateAux rows d0).ordinal + 1)).map (fun i =>
    (dateAfter (minDateAux rows d0) i,
     total_purchases (rows.filter (fun r =>
       decide (eventDate r = dateAfter (minDateAux rows d0) i)))))

def purchase_frequency (t : List Row) (u : Nat) : List (Date × Nat) :=
  match userRows t u with
  | [] => []
  | r0 :: rest => resampleDaily (r0 :: rest) (eventDate r0)

/-- First day of the resampled range (dummy date when the user is absent). -/
def firstUserDate (t : List Row) (u : Nat) : Date :=
  match userRows t u with
  | [] => ⟨1, 1, 1⟩
  | r0 :: rest => minDateAux (r0 :: rest) (eventDate r0)

/-- Last day of the resampled range (dummy date when the user is absent). -/
def lastUserDate (t : List Row) (u : Nat) : Date :=
  match userRows t u with
  | [] => ⟨1, 1, 1⟩
  | r0 :: rest => maxDateAux (r0 :: rest) (eventDate r0)

/-! ## Filtered cross-tab (lines 195–200) -/

/-- Line 195: `df[(df['event_time'] >= pd.to_datetime(start_date)) &
    (df['event_time'] <= pd.to_datetime(end_date))]` — both bounds are the
    **midnight instants** of the chosen dates. -/
def filtered_df (t : List Row) (s e : Date) : List Row :=
  t.filter (fun r =>
    decide (s.midnight ≤ r.event_time.instant ∧ r.event_time.instant ≤ e.midnight))

/-- Lines 196–197: `if categories: … isin(categories)`; an empty selection
    applies no filter, and a null `main_category` never matches. -/
def catFilter (cats : List String) (t : List Row) : List Row :=
  if cats.isEmpty then t
  else t.filter (fun r =>
    match mainCategoryRow r.category_code with
    | some c => cats.contains c
    | none => false)

/-- Distinct `(category_code, brand, price)` keys; groupby drops every row
    in which any key component is null. -/
def tripleKeys (t : List Row) : List (String × String × ℚ) :=
  (t.filterMap (fun r =>
    match r.category_code, r.brand with
    | some c, some b => some (c, b, r.price)
    | _, _ => none)).dedup

/-- Lines 199–200: group a filtered table by `(category_code, brand,
    price)`, sum the chosen metric, sort by that sum descending. -/
def crossTab (f : List Row) (m : Metric) : List ((String × String × ℚ) × Nat) :=
  ((tripleKeys f).map (fun k =>
    (k, ((f.filter (fun r =>
      decide (r.category_code = some k.1 ∧ r.brand = some k.2.1 ∧ r.price = k.2.2))).map
        (metricVal m)).sum))).insertionSort sndGe

def grouped_data (t : List Row) (s e : Date) (cats : List String) (m : Metric) :
    List ((String × String × ℚ) × Nat) :=
  crossTab (catFilter cats (filtered_df t s e)) m

/-- Modelled from the claim's words: keep the rows whose **calendar day**
    lies between `start` and `end` inclusive on both ends, then the same
    category filter, grouping and descending sort as the source. -/
def claim_day_filtered (t : List Row) (s e : Date) : List Row :=
  t.filter (fun r =>
    decide (s.ordinal ≤ (eventDate r).ordinal ∧ (eventDate r).ordinal ≤ e.ordinal))

def claim_grouped_data (t : List Row) (s e : Date) (cats : List String) (m : Metric) :
    List ((String × String × ℚ) × Nat) :=
  crossTab (catFilter cats (claim_day_filtered t s e)) m

/-! ## The loader (lines 12–25) -/

inductive LoadOutcome
  | table (t : List Row)
  | formatError
  | dataError
  | uncaughtIndexError
  deriving DecidableEq

/-- A raw byte source for the loader: either an unreadable archive
    (`zipfile.BadZipFile`) or a readable one with a member-name list and the
    deserialisation result of its first `.pkl` member (if any). -/
inductive ZipSource
  | badZip
  | files (names : List String) (pkl : Option (List Row))

/-- `name.endswith('.pkl')` on the member names. -/
def endsWithPkl (n : String) : Bool :=
  List.isSuffixOf ((".pkl").data) n.data

/-- Lines 12–25: a `BadZipFile` is caught and surfaced (`st.error` +
    `st.stop`); otherwise `[n for n in namelist if n.endswith('.pkl')][0]`
    raises an **uncaught** `IndexError` when no member matches; otherwise a
    failing unpickle is caught and surfaced. -/
def loadDataset : ZipSource → LoadOutcome
  | .badZip => .formatError
  | .files names pkl =>
    if (names.filter endsWithPkl).isEmpty then .uncaughtIndexError
    else
      match pkl with
      | none => .dataError
      | some t => .table t

/-! ## Generic list lemmas -/

theorem sum_filter_add {α : Type} (p : α → Bool) (f : α → Nat) (t : List α) :
    ((t.filter p).map f).sum + ((t.filter (fun a => ! p a)).map f).sum = (t.map f).sum := by
  induction t with
  | nil => simp
  | cons a t ih =>
    by_cases h : p a <;> simp [List.filter_cons, h] <;> omega

theorem filter_filter_of_imp {α : Type} (p q : α → Bool) (h : ∀ a, q a = true → p a = true)
    (t : List α) : (t.filter p).filter q = t.filter q := by
  induction t with
  | nil => rfl
  | cons a t ih =>
    by_cases hp : p a
    · simp [List.filter_cons, hp, ih]
    · have hq : q a = false := by
        cases hqa : q a
        · rfl
        · exact absurd (h a hqa) (by simp [hp])
      simp [List.filter_cons, hp, hq, ih]

/-- Summing a groupby result over a key list that is duplicate-free and
    covers every row recovers the ungrouped total. -/
theorem sum_groups {α K : Type} [DecidableEq K] (key : α → K) (f : α → Nat) :
    ∀ ks : List K, ks.Nodup → ∀ t : List α, (∀ a ∈ t, key a ∈ ks) →
      (ks.map (fun c => ((t.filter (fun a => decide (key a = c))).map f).sum)).sum
        = (t.map f).sum := by
  intro ks
  induction ks with
  | nil =>
    intro _ t hcov
    have ht : t = [] := by
      cases t with
      | nil => rfl
      | cons a t => exact absurd (hcov a (List.mem_cons_self a t)) (List.not_mem_nil _)
    subst ht; rfl
  | cons c ks ih =>
    intro hnd t hcov
    have hcmem := (List.nodup_cons.mp hnd).1
    have hnd' := (List.nodup_cons.mp hnd).2
    have hmap : ks.map (fun c' => ((t.filter (fun a => decide (key a = c'))).map f).sum)
        = ks.map (fun c' =>
            (((t.filter (fun a => ! decide (key a = c))).filter
              (fun a => decide (key a = c'))).map f).sum) := by
      apply List.map_congr_left
      intro c' hc'
      rw [filter_filter_of_imp]
      intro a ha
      have hk : key a = c' := of_decide_eq_true ha
      have hne : key a ≠ c := by
        rw [hk]; rintro rfl; exact hcmem hc'
      simp [hne]
    have hcov2 : ∀ a ∈ t.filter (fun a => ! decide (key a = c)), key a ∈ ks := by
      intro a ha
      rcases List.mem_filter.mp ha with ⟨hat, hno⟩
      rcases List.mem_cons.mp (hcov a hat) with h | h
      · exfalso; simp [h] at hno
      · exact h
    have hrec := ih hnd' (t.filter (fun a => ! decide (key a = c))) hcov2
    have hsplit := sum_filter_add (fun a => decide (key a = c)) f t
    simp only [List.map_cons, List.sum_cons]
    rw [hmap, hrec]
    exact hsplit

theorem mem_map_pair {K β : Type} (ks : List K) (g : K → β) (k : K) (v : β) :
    (k, v) ∈ ks.map (fun c => (c, g c)) ↔ k ∈ ks ∧ v = g k := by
  constructor
  · intro h
    rcases List.mem_map.mp h with ⟨c, hc, heq⟩
    have h1 : c = k := congrArg Prod.fst heq
    have h2 : g c = v := congrArg Prod.snd heq
    subst h1
    exact ⟨hc, h2.symm⟩
  · rintro ⟨hk, rfl⟩
    exact List.mem_map.mpr ⟨k, hk, rfl⟩

/-! ## Claim C1: the at-risk filter -/

/-- C1: the at-risk operation groups by `product_id`, sums views and
    purchases, and a product is flagged iff its smoothed ratio
    `total_views / (total_purchases + 1)` is strictly greater than 10;
    with `total_purchases = 0` the ratio is just `total_views / 1`, so no
    division failure can occur. -/
theorem c1_at_risk (t : List Row) (p : Nat) :
    ((p ∈ (at_risk_products t).map (fun s => s.1)) ↔ (p ∈ product_ids t ∧ 10 < ratioOf t p))
    ∧ (total_purchases_of t p = 0 → ratioOf t p = ((total_views_of t p : Nat) : ℚ)) := by
  constructor
  · constructor
    · intro h
      rcases List.mem_map.mp h with ⟨s, hs, hs1⟩
      rcases List.mem_filter.mp hs with ⟨hmem, hdec⟩
      rcases List.mem_map.mp hmem with ⟨q, hq, hqs⟩
      subst hqs
      have hq1 : q = p := hs1
      subst hq1
      refine ⟨hq, ?_⟩
      have hr := of_decide_eq_true hdec
      simpa [ratioOf] using hr
    · rintro ⟨hp, hr⟩
      refine List.mem_map.mpr
        ⟨(p, total_views_of t p, total_purchases_of t p), ?_, rfl⟩
      refine List.mem_filter.mpr ⟨List.mem_map.mpr ⟨p, hp, rfl⟩, ?_⟩
      exact decide_eq_true (by simpa [ratioOf] using hr)
  · intro h
    unfold ratioOf
    rw [h]
    norm_num

def w1Row1 : Row := ⟨⟨⟨4, 1, 5⟩, 0⟩, 5, some ("a.b"), some ("X"), 10, 1, 22, 0⟩
def w1Row2 : Row := ⟨⟨⟨4, 1, 6⟩, 0⟩, 5, none, none, 10, 1, 0, 1⟩
def w1Row3 : Row := ⟨⟨⟨4, 1, 7⟩, 0⟩, 6, some ("a.c"), some ("Y"), 5, 2, 5, 0⟩
def w1T : List Row := [w1Row1, w1Row2, w1Row3]

/-- C1 witness: product 5 has 22 views and 1 purchase (ratio 11 > 10) and is
    flagged; product 6 has 0 purchases and its ratio is its view total. -/
theorem c1_at_risk_witness :
    (5 ∈ (at_risk_products w1T).map (fun s => s.1))
    ∧ ratioOf w1T 6 = ((total_views_of w1T 6 : Nat) : ℚ) :=
  ⟨(c1_at_risk w1T 5).1.mpr ⟨by decide, by
      rw [ratioOf, show total_views_of w1T 5 = 22 from by decide,
        show total_purchases_of w1T 5 = 1 from by decide]
      norm_num⟩,
   (c1_at_risk w1T 6).2 (by decide)⟩

/-! ## Claim C2: start date after end date -/

/-- C2 (code behaviour): when `start` is a later calendar day than `end`,
    the date filter of line 195 **silently returns the empty table** — the
    source has no error path here at all, contradicting the specified
    `RangeError`. -/
theorem c2_filtered_empty (t : List Row) (s e : Date) (h : e.ordinal < s.ordinal) :
    filtered_df t s e = [] := by
  unfold filtered_df
  rw [List.filter_eq_nil_iff]
  intro r _
  simp only [decide_eq_true_eq, not_and, not_le, Date.midnight]
  intro h1
  omega

def w2T : List Row := [⟨⟨⟨4, 3, 7⟩, 100⟩, 1, some ("a.b"), some ("X"), 10, 1, 1, 0⟩]

/-- C2 witness: a concrete non-empty table filtered with
    start 0004-03-10 > end 0004-03-05 yields the empty result. -/
theorem c2_filtered_empty_witness : filtered_df w2T ⟨4, 3, 10⟩ ⟨4, 3, 5⟩ = [] :=
  c2_filtered_empty w2T ⟨4, 3, 10⟩ ⟨4, 3, 5⟩ (by decide)

/-! ## Claim C8: loader failure modes -/

/-- C8 (code behaviour): an unreadable archive is caught and surfaced as the
    format-error path, but a readable archive containing **no** `.pkl`
    member raises an uncaught `IndexError` (from `[...][0]` on an empty
    list) instead of the specified typed `FormatError`.  In neither case is
    a usable table produced. -/
theorem c8_loader_no_pkl :
    loadDataset (ZipSource.files [("data.csv")] none) = LoadOutcome.uncaughtIndexError
    ∧ loadDataset ZipSource.badZip = LoadOutcome.formatError := by
  exact ⟨by decide, rfl⟩

/-! ## Claim C10: time series for an absent user -/

/-- C10: if a `user_id` appears in no row, the per-user daily resample
    returns the empty series (a valid zero-row outcome; the operation is
    total and has no error path). -/
theorem c10_absent_user (t : List Row) (u : Nat) (h : ∀ r ∈ t, r.user_id ≠ u) :
    purchase_frequency t u = [] := by
  have hu : userRows t u = [] := by
    unfold userRows
    rw [List.filter_eq_nil_iff]
    intro r hr
    simpa using h r hr
  unfold purchase_frequency
  rw [hu]

/-- C10 witness: user 99 appears nowhere in the concrete table. -/
theorem c10_absent_user_witness : purchase_frequency w1T 99 = [] :=
  c10_absent_user w1T 99 (by decide)

/-! ## Category aggregation totals (claims C3 and C9) -/

theorem cat_codes_nodup (t : List Row) : (cat_codes t).Nodup :=
  (List.perm_insertionSort _ _).nodup_iff.mpr (t.filterMap (·.category_code)).nodup_dedup

theorem mem_cat_codes {t : List Row} {c : String} :
    c ∈ cat_codes t ↔ ∃ r ∈ t, r.category_code = some c := by
  unfold cat_codes
  rw [List.mem_insertionSort, List.mem_dedup, List.mem_filterMap]

/-- The per-category metric totals sum to the metric total over exactly the
    rows whose `category_code` is non-null (groupby drops null keys). -/
theorem catAgg_total (t : List Row) (m : Metric) :
    ((cat_agg t m).map (fun x => x.2)).sum
      = ((t.filter (fun r => (r.category_code).isSome)).map (metricVal m)).sum := by
  have step1 : ∀ c : String,
      t.filter (fun r => decide (r.category_code = some c))
        = (t.filter (fun r => (r.category_code).isSome)).filter
            (fun r => decide ((r.category_code).getD ("") = c)) := by
    intro c
    rw [List.filter_filter]
    apply List.filter_congr
    intro r _
    cases hc : r.category_code with
    | none => simp [hc]
    | some s => simp [hc]
  have hcov : ∀ r ∈ t.filter (fun r => (r.category_code).isSome),
      (r.category_code).getD ("") ∈ cat_codes t := by
    intro r hr
    rcases List.mem_filter.mp hr with ⟨hrt, hsome⟩
    cases hc : r.category_code with
    | none => simp [hc] at hsome
    | some s =>
      simp only [hc, Option.getD_some]
      exact mem_cat_codes.mpr ⟨r, hrt, hc⟩
  have hmain := sum_groups (fun r => (r.category_code).getD ("")) (metricVal m)
    (cat_codes t) (cat_codes_nodup t) (t.filter (fun r => (r.category_code).isSome)) hcov
  unfold cat_agg
  rw [List.map_map]
  have hfun : ((fun x : String × Nat => x.2) ∘ fun c =>
      (c, ((t.filter (fun r => decide (r.category_code = some c))).map (metricVal m)).sum))
      = fun c => ((t.filter (fun r => decide (r.category_code = some c))).map
          (metricVal m)).sum := rfl
  rw [hfun]
  rw [List.map_congr_left (fun c _ => by rw [step1 c])]
  exact hmain

/-- Sum of the per-category purchase totals of lines 146. -/
def catPurchaseTotal (t : List Row) : Nat :=
  ((cat_agg t Metric.purchase).map (fun x => x.2)).sum

def c3T : List Row := [⟨⟨⟨4, 1, 5⟩, 0⟩, 1, none, some ("X"), 10, 1, 0, 1⟩]

/-- C3 counterexample: a table whose single row has a null `category_code`
    and one purchase.  The category groupby drops the row, so the summed
    per-category purchase totals are 0 while `total_purchases` is 1. -/
theorem c3_counterexample : catPurchaseTotal c3T ≠ total_purchases c3T := by decide

/-- C3 amended: the per-category purchase totals sum to `total_purchases`
    whenever every row has a non-null `category_code` (in general they sum
    to the purchase total over the non-null-category rows only). -/
theorem c3_partition (t : List Row) (h : ∀ r ∈ t, (r.category_code).isSome) :
    catPurchaseTotal t = total_purchases t := by
  unfold catPurchaseTotal
  rw [catAgg_total]
  rw [List.filter_eq_self.mpr h]
  rfl

def w3T : List Row :=
  [⟨⟨⟨4, 1, 5⟩, 0⟩, 1, some ("a.b"), some ("X"), 10, 1, 1, 2⟩,
   ⟨⟨⟨4, 1, 6⟩, 0⟩, 2, some ("b.c"), some ("Y"), 5, 1, 0, 3⟩]

/-- C3 witness: on a table with only non-null category codes the partition
    identity holds (both sides are 5). -/
theorem c3_partition_witness : catPurchaseTotal w3T = total_purchases w3T :=
  c3_partition w3T (by decide)

/-! ## Claim C9: one main-category derivation rule -/

/-- C9: the per-row `main_category` derivation (line 30) and the extraction
    used for `total_categories` (line 48) agree on every `category_code`, so
    the distinct-count can be computed from the row column; rows with null
    `category_code` are excluded from the category-keyed aggregates while
    remaining included in `total_purchases` (last conjunct splits it into
    its non-null-category and null-category parts). -/
theorem c9_main_category (c : Option String) (t : List Row) (m : Metric) :
    mainCategoryRow c = mainCategoryAgg c
    ∧ total_categories t
        = ((t.filterMap (fun r => mainCategoryRow r.category_code)).dedup).length
    ∧ ((cat_agg t m).map (fun x => x.2)).sum
        = ((t.filter (fun r => (r.category_code).isSome)).map (metricVal m)).sum
    ∧ total_purchases t
        = total_purchases (t.filter (fun r => (r.category_code).isSome))
          + total_purchases (t.filter (fun r => decide (r.category_code = none))) := by
  have hfun : ∀ x : Option String, mainCategoryRow x = mainCategoryAgg x := by
    intro x; cases x <;> rfl
  refine ⟨hfun c, ?_, catAgg_total t m, ?_⟩
  · unfold total_categories
    rw [show (fun r : Row => mainCategoryAgg r.category_code)
      = fun r : Row => mainCategoryRow r.category_code from funext fun r => (hfun _).symm]
  · have hs := sum_filter_add (fun r => (r.category_code).isSome) (fun r => r.purchase) t
    have hnone : t.filter (fun r => ! (r.category_code).isSome)
        = t.filter (fun r => decide (r.category_code = none)) := by
      apply List.filter_congr
      intro r _
      cases hc : r.category_code <;> simp [hc]
    unfold total_purchases
    rw [← hs, hnone]

/-! ## Claim C5: the category leaderboard -/

instance : IsTrans (String × Nat) lexGe where
  trans := by
    intro a b c hab hbc
    rcases hab with h1 | ⟨h1, h1s⟩ <;> rcases hbc with h2 | ⟨h2, h2s⟩
    · exact Or.inl (lt_trans h2 h1)
    · exact Or.inl (h2 ▸ h1)
    · exact Or.inl (by omega)
    · exact Or.inr ⟨h1.trans h2, le_trans h1s h2s⟩

instance : IsTotal (String × Nat) lexGe where
  total := by
    intro a b
    rcases Nat.lt_trichotomy a.2 b.2 with h | h | h
    · exact Or.inr (Or.inl h)
    · rcases le_total a.1 b.1 with hs | hs
      · exact Or.inl (Or.inr ⟨h, hs⟩)
      · exact Or.inr (Or.inr ⟨h.symm, hs⟩)
    · exact Or.inl (Or.inl h)

instance : IsAntisymm (String × Nat) lexGe where
  antisymm := by
    intro a b hab hba
    rcases hab with h1 | ⟨h1, h1s⟩ <;> rcases hba with h2 | ⟨h2, h2s⟩
    · exact absurd h1 (by omega)
    · exact absurd h1 (by omega)
    · exact absurd h2 (by omega)
    · exact Prod.ext_iff.mpr ⟨le_antisymm h1s h2s, h1⟩

instance {α : Type} : IsTrans (α × Nat) sndGe where
  trans := by
    intro a b c hab hbc
    have h1 : b.2 ≤ a.2 := hab
    have h2 : c.2 ≤ b.2 := hbc
    exact le_trans h2 h1

instance {α : Type} : IsTotal (α × Nat) sndGe where
  total := by
    intro a b
    rcases le_total a.2 b.2 with h | h
    · exact Or.inr h
    · exact Or.inl h

theorem pairwise_and_of {α : Type} {R S : α → α → Prop} :
    ∀ {l : List α}, l.Pairwise R → l.Pairwise S → l.Pairwise (fun a b => R a b ∧ S a b) :=
  fun hR hS => hR.and hS

/-- Inserting `x` by metric value alone into a list that is already sorted
    by (value descending, key ascending) keeps that order, provided `x`'s
    key is smaller than every key present — the stability argument for
    `nlargest` over a key-ascending groupby result. -/
theorem orderedInsert_sndGe_sorted (x : String × Nat) :
    ∀ M : List (String × Nat), M.Sorted lexGe → (∀ z ∈ M, x.1 < z.1) →
      (M.orderedInsert sndGe x).Sorted lexGe := by
  intro M
  induction M with
  | nil =>
    intro _ _
    simp [List.orderedInsert]
  | cons y M ih =>
    intro hs hx
    simp only [List.orderedInsert]
    split_ifs with h
    · have h' : y.2 ≤ x.2 := h
      refine List.Pairwise.cons ?_ hs
      intro z hz
      rcases List.mem_cons.mp hz with rfl | hzM
      · rcases Nat.lt_or_ge z.2 x.2 with hlt | hge
        · exact Or.inl hlt
        · exact Or.inr ⟨le_antisymm hge h', le_of_lt (hx z (List.mem_cons_self _ _))⟩
      · have hyz := List.rel_of_sorted_cons hs z hzM
        rcases hyz with h1 | ⟨h1, _⟩
        · exact Or.inl (lt_of_lt_of_le h1 h')
        · rcases Nat.lt_or_ge z.2 x.2 with hlt | hge2
          · exact Or.inl hlt
          · exact Or.inr ⟨le_antisymm hge2 (h1 ▸ h'),
              le_of_lt (hx z (List.mem_cons_of_mem _ hzM))⟩
    · have h' : x.2 < y.2 := Nat.lt_of_not_le h
      rcases List.sorted_cons.mp hs with ⟨hy1, hy2⟩
      refine List.Pairwise.cons ?_ (ih hy2 (fun z hz => hx z (List.mem_cons_of_mem _ hz)))
      intro z hz
      have hz' : z = x ∨ z ∈ M := by simpa using hz
      rcases hz' with rfl | hzM
      · exact Or.inl h'
      · exact hy1 z hzM

/-- Stably sorting a key-strictly-ascending list by value descending yields
    the (value descending, key ascending) order. -/
theorem insertionSort_sndGe_sorted_lexGe :
    ∀ l : List (String × Nat), l.Pairwise (fun a b => a.1 < b.1) →
      (l.insertionSort sndGe).Sorted lexGe := by
  intro l
  induction l with
  | nil => intro _; simp [List.insertionSort]
  | cons x l ih =>
    intro hp
    rw [List.insertionSort]
    have hkeys : ∀ z ∈ l.insertionSort sndGe, x.1 < z.1 := fun z hz =>
      (List.pairwise_cons.mp hp).1 z ((List.mem_insertionSort sndGe).mp hz)
    exact orderedInsert_sndGe_sorted x _ (ih (List.pairwise_cons.mp hp).2) hkeys

/-- The groupby result of lines 146/153 has strictly ascending keys. -/
theorem cat_agg_keys_strict (t : List Row) (m : Metric) :
    (cat_agg t m).Pairwise (fun a b => a.1 < b.1) := by
  unfold cat_agg
  rw [List.pairwise_map]
  have hs : (cat_codes t).Sorted (· ≤ ·) := List.sorted_insertionSort _ _
  have hn : (cat_codes t).Nodup := cat_codes_nodup t
  exact (pairwise_and_of hs hn).imp (fun h => lt_of_le_of_ne h.1 h.2)

/-- C5: `nlargest k` over the key-ascending category groupby equals taking
    the first `k` entries of the leaderboard sorted by metric sum descending
    with ties broken by `category_code` ascending; the full leaderboard is
    sorted by that deterministic order, so repeated evaluation returns the
    same sequence. -/
theorem c5_leaderboard (t : List Row) (m : Metric) (k : Nat) (_hk : 0 < k) :
    top_categories t m k = (leaderboard_spec t m).take k
    ∧ (leaderboard_spec t m).Sorted lexGe := by
  have hsortA : ((cat_agg t m).insertionSort sndGe).Sorted lexGe :=
    insertionSort_sndGe_sorted_lexGe _ (cat_agg_keys_strict t m)
  have hsortB : ((cat_agg t m).insertionSort lexGe).Sorted lexGe :=
    List.sorted_insertionSort lexGe _
  have hperm : List.Perm ((cat_agg t m).insertionSort sndGe) ((cat_agg t m).insertionSort lexGe) :=
    (List.perm_insertionSort _ _).trans (List.perm_insertionSort _ _).symm
  have heq : (cat_agg t m).insertionSort sndGe = (cat_agg t m).insertionSort lexGe :=
    List.eq_of_perm_of_sorted hperm hsortA hsortB
  constructor
  · unfold top_categories nlargest leaderboard_spec
    rw [heq]
  · exact hsortB

def w5T : List Row :=
  [⟨⟨⟨4, 1, 5⟩, 0⟩, 1, some ("b.x"), some ("X"), 10, 1, 3, 1⟩,
   ⟨⟨⟨4, 1, 6⟩, 0⟩, 2, some ("a.y"), some ("Y"), 5, 1, 3, 2⟩,
   ⟨⟨⟨4, 1, 7⟩, 0⟩, 3, some ("c.z"), some ("Z"), 7, 1, 9, 0⟩]

/-- C5 witness: a concrete table with a genuine tie (categories `a.y` and
    `b.x` both have 3 views); `k = 2` is positive. -/
theorem c5_leaderboard_witness :
    top_categories w5T Metric.view 2 = (leaderboard_spec w5T Metric.view).take 2
    ∧ (leaderboard_spec w5T Metric.view).Sorted lexGe :=
  c5_leaderboard w5T Metric.view 2 (by decide)

/-! ## String order facts for `YYYY-MM` keys (claim C6) -/

theorem stringLt_iff {s t : String} : s < t ↔ List.Lex (· < ·) s.data t.data :=
  String.lt_iff_toList_lt

theorem charLex_cons {a b : Char} {as bs : List Char} :
    List.Lex (· < ·) (a :: as) (b :: bs) ↔ a < b ∨ (a = b ∧ List.Lex (· < ·) as bs) := by
  constructor
  · intro h
    cases h with
    | cons h => exact Or.inr ⟨rfl, h⟩
    | rel h => exact Or.inl h
  · rintro (h | ⟨rfl, h⟩)
    · exact List.Lex.rel h
    · exact List.Lex.cons h

theorem dChar_lt_iff_fin : ∀ a b : Fin 10, (dChar a.val < dChar b.val ↔ a.val < b.val) := by
  decide

theorem dChar_inj_fin : ∀ a b : Fin 10, dChar a.val = dChar b.val → a.val = b.val := by
  decide

theorem dChar_lt_iff {a b : Nat} (ha : a < 10) (hb : b < 10) :
    dChar a < dChar b ↔ a < b :=
  dChar_lt_iff_fin ⟨a, ha⟩ ⟨b, hb⟩

theorem dChar_inj {a b : Nat} (ha : a < 10) (hb : b < 10) (h : dChar a = dChar b) : a = b :=
  dChar_inj_fin ⟨a, ha⟩ ⟨b, hb⟩ h

theorem pad2_lex_iff {a b : Nat} (ha : a < 100) (hb : b < 100) :
    List.Lex (· < ·) (pad2 a) (pad2 b) ↔ a < b := by
  unfold pad2
  rw [charLex_cons]
  constructor
  · rintro (h | ⟨heq, h⟩)
    · have := (dChar_lt_iff (by omega) (by omega)).mp h
      omega
    · rw [charLex_cons] at h
      rcases h with h | ⟨_, h⟩
      · have h1 := dChar_inj (by omega) (by omega) heq
        have h2 := (dChar_lt_iff (by omega) (by omega)).mp h
        omega
      · exact absurd h (List.Lex.not_nil_right _ _)
  · intro h
    rcases Nat.lt_trichotomy (a / 10) (b / 10) with h1 | h1 | h1
    · exact Or.inl ((dChar_lt_iff (by omega) (by omega)).mpr h1)
    · refine Or.inr ⟨by rw [h1], ?_⟩
      rw [charLex_cons]
      exact Or.inl ((dChar_lt_iff (by omega) (by omega)).mpr (by omega))
    · exact absurd h (by omega)

theorem pad2_inj {a b : Nat} (ha : a < 100) (hb : b < 100) (h : pad2 a = pad2 b) : a = b := by
  unfold pad2 at h
  injection h with h1 h2
  injection h2 with h2 _
  have e1 := dChar_inj (by omega) (by omega) h1
  have e2 := dChar_inj (by omega) (by omega) h2
  omega

theorem lex_append_iff {l1 : List Char} :
    ∀ {l2 : List Char} {r1 r2 : List Char}, l1.length = l2.length →
      (List.Lex (· < ·) (l1 ++ r1) (l2 ++ r2)
        ↔ List.Lex (· < ·) l1 l2 ∨ (l1 = l2 ∧ List.Lex (· < ·) r1 r2)) := by
  induction l1 with
  | nil =>
    intro l2 r1 r2 h
    cases l2 with
    | nil =>
      constructor
      · intro hh
        exact Or.inr ⟨rfl, by simpa using hh⟩
      · rintro (hh | ⟨_, hh⟩)
        · exact absurd hh (List.Lex.not_nil_right _ _)
        · simpa using hh
    | cons b bs => simp at h
  | cons a as ih =>
    intro l2 r1 r2 h
    cases l2 with
    | nil => simp at h
    | cons b bs =>
      have hlen : as.length = bs.length := by simpa using h
      simp only [List.cons_append]
      rw [charLex_cons, charLex_cons, ih hlen]
      constructor
      · rintro (h1 | ⟨rfl, h1 | ⟨rfl, h1⟩⟩)
        · exact Or.inl (Or.inl h1)
        · exact Or.inl (Or.inr ⟨rfl, h1⟩)
        · exact Or.inr ⟨rfl, h1⟩
      · rintro ((h1 | ⟨rfl, h1⟩) | ⟨heq, h1⟩)
        · exact Or.inl h1
        · exact Or.inr ⟨rfl, Or.inl h1⟩
        · injection heq with he1 he2
          subst he1
          subst he2
          exact Or.inr ⟨rfl, Or.inr ⟨rfl, h1⟩⟩

/-- On zero-padded `YYYY-MM` strings the lexical string order coincides with
    the chronological order of the `(year, month)` pairs. -/
theorem ymString_lt_iff {y1 m1 y2 m2 : Nat} (hy1 : y1 < 10000) (hy2 : y2 < 10000)
    (hm1 : m1 < 100) (hm2 : m2 < 100) :
    ymString y1 m1 < ymString y2 m2 ↔ (y1 < y2 ∨ (y1 = y2 ∧ m1 < m2)) := by
  rw [stringLt_iff]
  show List.Lex (· < ·)
      (pad2 (y1 / 100) ++ pad2 (y1 % 100) ++ '-' :: pad2 m1)
      (pad2 (y2 / 100) ++ pad2 (y2 % 100) ++ '-' :: pad2 m2) ↔ _
  rw [List.append_assoc, List.append_assoc]
  rw [lex_append_iff (show (pad2 (y1 / 100)).length = (pad2 (y2 / 100)).length from rfl),
    lex_append_iff (show (pad2 (y1 % 100)).length = (pad2 (y2 % 100)).length from rfl),
    charLex_cons]
  have hdash : ¬ (('-' : Char) < '-') := by decide
  have e1 : pad2 (y1 / 100) = pad2 (y2 / 100) ↔ y1 / 100 = y2 / 100 :=
    ⟨fun h => pad2_inj (by omega) (by omega) h, fun h => by rw [h]⟩
  have e2 : pad2 (y1 % 100) = pad2 (y2 % 100) ↔ y1 % 100 = y2 % 100 :=
    ⟨fun h => pad2_inj (by omega) (by omega) h, fun h => by rw [h]⟩
  rw [pad2_lex_iff (by omega) (by omega), pad2_lex_iff (by omega) (by omega),
    pad2_lex_iff hm1 hm2, e1, e2]
  simp only [hdash, false_or, true_and, eq_self_iff_true]
  omega

theorem ymString_inj {y1 m1 y2 m2 : Nat} (hy1 : y1 < 10000) (hy2 : y2 < 10000)
    (hm1 : m1 < 100) (hm2 : m2 < 100) (h : ymString y1 m1 = ymString y2 m2) :
    y1 = y2 ∧ m1 = m2 := by
  have h1 : ¬ (y1 < y2 ∨ (y1 = y2 ∧ m1 < m2)) := by
    rw [← ymString_lt_iff hy1 hy2 hm1 hm2, h]
    exact lt_irrefl _
  have h2 : ¬ (y2 < y1 ∨ (y2 = y1 ∧ m2 < m1)) := by
    rw [← ymString_lt_iff hy2 hy1 hm2 hm1, h]
    exact lt_irrefl _
  omega

/-! ## Claim C6: monthly totals are string-sorted and chronological -/

instance : IsTrans (Nat × Nat) pairLe where
  trans := by
    intro a b c h1 h2
    unfold pairLe at h1 h2 ⊢
    omega

instance : IsTotal (Nat × Nat) pairLe where
  total := by
    intro a b
    unfold pairLe
    omega

instance : IsAntisymm (Nat × Nat) pairLe where
  antisymm := by
    intro a b h1 h2
    unfold pairLe at h1 h2
    exact Prod.ext_iff.mpr (by omega)

theorem dedup_map_of_injOn {α β : Type} [DecidableEq α] [DecidableEq β] (f : α → β) :
    ∀ l : List α, (∀ a ∈ l, ∀ b ∈ l, f a = f b → a = b) →
      (l.map f).dedup = (l.dedup).map f := by
  intro l
  induction l with
  | nil => intro _; rfl
  | cons a l ih =>
    intro hinj
    have hrest : ∀ x ∈ l, ∀ y ∈ l, f x = f y → x = y := fun x hx y hy =>
      hinj x (List.mem_cons_of_mem _ hx) y (List.mem_cons_of_mem _ hy)
    by_cases ha : a ∈ l
    · have hfa : f a ∈ l.map f := List.mem_map.mpr ⟨a, ha, rfl⟩
      rw [List.map_cons, List.dedup_cons_of_mem hfa, List.dedup_cons_of_mem ha]
      exact ih hrest
    · have hfa : f a ∉ l.map f := by
        intro hmem
        rcases List.mem_map.mp hmem with ⟨b, hb, hfb⟩
        have hba := hinj b (List.mem_cons_of_mem _ hb) a (List.mem_cons_self _ _) hfb
        exact ha (hba ▸ hb)
      rw [List.map_cons, List.dedup_cons_of_not_mem hfa, List.dedup_cons_of_not_mem ha,
        List.map_cons, ih hrest]

/-- The dedup of the `year_month` column is the stringification of the dedup
    of the `(year, month)` pairs, provided the fields are in range. -/
theorem ym_dedup_eq (t : List Row)
    (h : ∀ r ∈ t, r.event_time.date.year < 10000 ∧ r.event_time.date.month < 100) :
    (t.map year_month).dedup
      = ((t.map (fun r => (r.event_time.date.year, r.event_time.date.month))).dedup).map
          (fun p => ymString p.1 p.2) := by
  have hmm : t.map year_month
      = (t.map (fun r => (r.event_time.date.year, r.event_time.date.month))).map
          (fun p => ymString p.1 p.2) := by
    rw [List.map_map]
    rfl
  rw [hmm]
  apply dedup_map_of_injOn
  intro a ha b hb hab
  rcases List.mem_map.mp ha with ⟨ra, hra, hpa⟩
  rcases List.mem_map.mp hb with ⟨rb, hrb, hpb⟩
  have hba := h ra hra
  have hbb := h rb hrb
  have hinj := ymString_inj (by rw [← hpa]; exact hba.1)
    (by rw [← hpb]; exact hbb.1)
    (by rw [← hpa]; exact hba.2)
    (by rw [← hpb]; exact hbb.2) hab
  exact Prod.ext_iff.mpr hinj

/-- Sorting the month strings lexically agrees with sorting the month pairs
    chronologically and then stringifying. -/
theorem ym_keys_eq (t : List Row)
    (h : ∀ r ∈ t, r.event_time.date.year < 10000 ∧ r.event_time.date.month < 100) :
    ((t.map year_month).dedup).insertionSort (· ≤ ·)
      = ((((t.map (fun r => (r.event_time.date.year, r.event_time.date.month))).dedup).insertionSort
          pairLe).map (fun p => ymString p.1 p.2)) := by
  have hbound : ∀ p ∈ ((t.map (fun r =>
      (r.event_time.date.year, r.event_time.date.month))).dedup).insertionSort pairLe,
      p.1 < 10000 ∧ p.2 < 100 := by
    intro p hp
    have hp2 := List.mem_dedup.mp ((List.mem_insertionSort pairLe).mp hp)
    rcases List.mem_map.mp hp2 with ⟨r, hr, hpr⟩
    have := h r hr
    rw [← hpr]
    exact this
  rw [ym_dedup_eq t h]
  have hperm : List.Perm
      ((((t.map (fun r => (r.event_time.date.year, r.event_time.date.month))).dedup).map
        (fun p => ymString p.1 p.2)).insertionSort (· ≤ ·))
      ((((t.map (fun r => (r.event_time.date.year, r.event_time.date.month))).dedup).insertionSort
        pairLe).map (fun p => ymString p.1 p.2)) :=
    (List.perm_insertionSort _ _).trans ((List.perm_insertionSort pairLe _).map _).symm
  have hs1 : ((((t.map (fun r => (r.event_time.date.year, r.event_time.date.month))).dedup).map
      (fun p => ymString p.1 p.2)).insertionSort (· ≤ ·)).Sorted (· ≤ ·) :=
    List.sorted_insertionSort _ _
  have hs2 : (((((t.map (fun r =>
      (r.event_time.date.year, r.event_time.date.month))).dedup).insertionSort
      pairLe).map (fun p => ymString p.1 p.2))).Sorted (· ≤ ·) := by
    rw [List.Sorted, List.pairwise_map]
    refine List.Pairwise.imp_of_mem ?_ (List.sorted_insertionSort pairLe _)
    intro p q hp hq hpq
    by_cases heq : p.1 = q.1 ∧ p.2 = q.2
    · rw [heq.1, heq.2]
    · apply le_of_lt
      rw [ymString_lt_iff (hbound p hp).1 (hbound q hq).1 (hbound p hp).2 (hbound q hq).2]
      unfold pairLe at hpq
      omega
  exact List.eq_of_perm_of_sorted hperm hs1 hs2

/-- C6: the monthly-totals table groups rows by the `YYYY-MM` key, sums
    `view` and `purchase` per bucket (third conjunct), returns the buckets
    in strictly ascending `year_month` order (second conjunct), and that
    lexical order coincides with chronological order: the table equals the
    variant grouped and sorted chronologically by `(year, month)` (first
    conjunct).  The range hypotheses say the dates are real 4-digit-year
    calendar data. -/
theorem c6_monthly (t : List Row)
    (h : ∀ r ∈ t, r.event_time.date.year < 10000 ∧ r.event_time.date.month < 100) :
    monthly_data t = monthly_data_chron t
    ∧ (monthly_data t).Pairwise (fun a b => a.1 < b.1)
    ∧ (∀ s v p, (s, v, p) ∈ monthly_data t ↔
        ((∃ r ∈ t, year_month r = s)
          ∧ v = total_views (t.filter (fun r => decide (year_month r = s)))
          ∧ p = total_purchases (t.filter (fun r => decide (year_month r = s))))) := by
  refine ⟨?_, ?_, ?_⟩
  · unfold monthly_data monthly_data_chron
    rw [ym_keys_eq t h, List.map_map]
    apply List.map_congr_left
    intro p hp
    have hpmem := List.mem_dedup.mp ((List.mem_insertionSort pairLe).mp hp)
    rcases List.mem_map.mp hpmem with ⟨rp, hrp, hprp⟩
    have hpb : p.1 < 10000 ∧ p.2 < 100 := by
      rw [← hprp]; exact h rp hrp
    have hfil : t.filter (fun r => decide (year_month r = ymString p.1 p.2))
        = t.filter (fun r =>
            decide ((r.event_time.date.year, r.event_time.date.month) = p)) := by
      apply List.filter_congr
      intro r hr
      have hrb := h r hr
      rw [decide_eq_decide]
      constructor
      · intro hy
        exact Prod.ext_iff.mpr (ymString_inj hrb.1 hpb.1 hrb.2 hpb.2 hy)
      · intro hy
        unfold year_month
        rw [← hy]
    show (ymString p.1 p.2,
        total_views (t.filter (fun r => decide (year_month r = ymString p.1 p.2))),
        total_purchases (t.filter (fun r => decide (year_month r = ymString p.1 p.2))))
      = (ymString p.1 p.2,
        total_views (t.filter (fun r =>
          decide ((r.event_time.date.year, r.event_time.date.month) = p))),
        total_purchases (t.filter (fun r =>
          decide ((r.event_time.date.year, r.event_time.date.month) = p))))
    rw [hfil]
  · unfold monthly_data
    rw [List.pairwise_map]
    exact (pairwise_and_of (List.sorted_insertionSort _ _)
      ((List.perm_insertionSort _ _).nodup_iff.mpr (t.map year_month).nodup_dedup)).imp
      (fun hx => lt_of_le_of_ne hx.1 hx.2)
  · intro s v p
    have hm := mem_map_pair (((t.map year_month).dedup).insertionSort (· ≤ ·))
      (fun sk => (total_views (t.filter (fun r => decide (year_month r = sk))),
        total_purchases (t.filter (fun r => decide (year_month r = sk))))) s (v, p)
    constructor
    · intro hmem
      rcases hm.mp hmem with ⟨hk, hvp⟩
      refine ⟨?_, congrArg Prod.fst hvp, congrArg Prod.snd hvp⟩
      have hk2 := List.mem_dedup.mp ((List.mem_insertionSort _).mp hk)
      rcases List.mem_map.mp hk2 with ⟨r, hr, hry⟩
      exact ⟨r, hr, hry⟩
    · rintro ⟨⟨r, hr, hry⟩, hv, hp2⟩
      apply hm.mpr
      exact ⟨(List.mem_insertionSort _).mpr (List.mem_dedup.mpr (List.mem_map.mpr ⟨r, hr, hry⟩)),
        Prod.ext_iff.mpr ⟨hv, hp2⟩⟩

def w6T : List Row :=
  [⟨⟨⟨4, 2, 10⟩, 0⟩, 2, some ("a.c"), some ("Y"), 5, 2, 5, 0⟩,
   ⟨⟨⟨3, 12, 5⟩, 30⟩, 1, some ("a.b"), some ("X"), 10, 1, 1, 0⟩,
   ⟨⟨⟨4, 1, 5⟩, 40⟩, 1, some ("a.b"), some ("X"), 10, 1, 0, 1⟩]

/-- C6 witness: a table spanning months 0003-12, 0004-01 and 0004-02 in
    scrambled row order satisfies the range hypothesis. -/
theorem c6_monthly_witness :
    monthly_data w6T = monthly_data_chron w6T
    ∧ (monthly_data w6T).Pairwise (fun a b => a.1 < b.1) :=
  ⟨(c6_monthly w6T (by decide)).1, (c6_monthly w6T (by decide)).2.1⟩

/-! ## Claim C4: the filtered cross-tab -/

theorem mem_tripleKeys {t : List Row} {c b : String} {pr : ℚ} :
    (c, b, pr) ∈ tripleKeys t
      ↔ ∃ r ∈ t, r.category_code = some c ∧ r.brand = some b ∧ r.price = pr := by
  unfold tripleKeys
  rw [List.mem_dedup, List.mem_filterMap]
  constructor
  · rintro ⟨r, hr, hm⟩
    refine ⟨r, hr, ?_⟩
    cases hcc : r.category_code with
    | none => rw [hcc] at hm; simp at hm
    | some c' =>
      cases hbb : r.brand with
      | none => rw [hcc, hbb] at hm; simp at hm
      | some b' =>
        rw [hcc, hbb] at hm
        simp only [Option.some.injEq, Prod.mk.injEq] at hm
        exact ⟨by rw [hm.1], by rw [hm.2.1], hm.2.2⟩
  · rintro ⟨r, hr, h1, h2, h3⟩
    exact ⟨r, hr, by rw [h1, h2, h3]⟩

theorem crossTab_mem (f : List Row) (m : Metric) (c b : String) (pr : ℚ) (v : Nat) :
    ((c, b, pr), v) ∈ crossTab f m
      ↔ ((∃ r ∈ f, r.category_code = some c ∧ r.brand = some b ∧ r.price = pr)
        ∧ v = ((f.filter (fun r =>
            decide (r.category_code = some c ∧ r.brand = some b ∧ r.price = pr))).map
              (metricVal m)).sum) := by
  unfold crossTab
  rw [List.mem_insertionSort sndGe]
  have hm := mem_map_pair (tripleKeys f)
    (fun k : String × String × ℚ => ((f.filter (fun r =>
      decide (r.category_code = some k.1 ∧ r.brand = some k.2.1 ∧ r.price = k.2.2))).map
        (metricVal m)).sum) (c, b, pr) v
  constructor
  · intro hmem
    rcases hm.mp hmem with ⟨hk, hv⟩
    exact ⟨mem_tripleKeys.mp hk, hv⟩
  · rintro ⟨hex, hv⟩
    exact hm.mpr ⟨mem_tripleKeys.mpr hex, hv⟩

theorem crossTab_sorted (f : List Row) (m : Metric) :
    (crossTab f m).Pairwise (fun a b => b.2 ≤ a.2) :=
  List.sorted_insertionSort sndGe _

/-- C4 amended: the cross-tab keeps exactly the rows whose event instant lies
    between the **midnights** of `start` and `end` (rows later in the end day
    are dropped — this is where the original day-inclusive claim fails);
    the category filter applies only when the selection is non-empty; the
    kept rows having non-null `category_code` and `brand` are grouped by
    `(category_code, brand, price)` with the chosen metric summed, and the
    groups come back sorted by that sum descending. -/
theorem c4_grouped (t : List Row) (s e : Date) (cats : List String) (m : Metric) :
    (∀ r : Row, r ∈ catFilter cats (filtered_df t s e) ↔
        (r ∈ t ∧ s.midnight ≤ r.event_time.instant ∧ r.event_time.instant ≤ e.midnight
          ∧ (cats = [] ∨ ∃ c, mainCategoryRow r.category_code = some c ∧ c ∈ cats)))
    ∧ (∀ c b pr v, ((c, b, pr), v) ∈ grouped_data t s e cats m ↔
        ((∃ r ∈ catFilter cats (filtered_df t s e),
            r.category_code = some c ∧ r.brand = some b ∧ r.price = pr)
          ∧ v = (((catFilter cats (filtered_df t s e)).filter (fun r =>
              decide (r.category_code = some c ∧ r.brand = some b ∧ r.price = pr))).map
                (metricVal m)).sum))
    ∧ (grouped_data t s e cats m).Pairwise (fun a b => b.2 ≤ a.2) := by
  refine ⟨?_, fun c b pr v => crossTab_mem _ m c b pr v, crossTab_sorted _ m⟩
  intro r
  unfold catFilter filtered_df
  by_cases hc : cats.isEmpty
  · rw [if_pos hc]
    have hcats : cats = [] := List.isEmpty_iff.mp hc
    subst hcats
    simp [List.mem_filter, and_assoc]
  · rw [if_neg hc]
    have hcats : cats ≠ [] := fun hh => hc (by rw [hh]; rfl)
    constructor
    · intro hmem
      rcases List.mem_filter.mp hmem with ⟨h1, h2⟩
      rcases List.mem_filter.mp h1 with ⟨hrt, hdec⟩
      have hdd := of_decide_eq_true hdec
      refine ⟨hrt, hdd.1, hdd.2, Or.inr ?_⟩
      cases hmc : mainCategoryRow r.category_code with
      | none => rw [hmc] at h2; simp at h2
      | some c =>
        rw [hmc] at h2
        exact ⟨c, rfl, by simpa using h2⟩
    · rintro ⟨hrt, hd1, hd2, hor⟩
      cases hor with
      | inl hnil => exact absurd hnil hcats
      | inr hex =>
        rcases hex with ⟨c, hmc, hcin⟩
        refine List.mem_filter.mpr
          ⟨List.mem_filter.mpr ⟨hrt, decide_eq_true ⟨hd1, hd2⟩⟩, ?_⟩
        rw [hmc]
        simpa using hcin

def c4Row : Row := ⟨⟨⟨4, 1, 5⟩, 30⟩, 1, some ("a.b"), some ("X"), 10, 1, 1, 0⟩

def c4T : List Row := [c4Row]

/-- C4 counterexample: `start = end = 0004-01-05` and a single row at 00:30
    on that same calendar day.  The day-inclusive reading of the claim keeps
    the row (third conjunct) and its cross-tab would show its group
    (second conjunct computes the claim-side pipeline), but the code
    compares the full timestamp with the midnight instant of the end date
    and returns the empty cross-tab. -/
theorem c4_counterexample :
    grouped_data c4T ⟨4, 1, 5⟩ ⟨4, 1, 5⟩ [] Metric.view
      ≠ claim_grouped_data c4T ⟨4, 1, 5⟩ ⟨4, 1, 5⟩ [] Metric.view
    ∧ grouped_data c4T ⟨4, 1, 5⟩ ⟨4, 1, 5⟩ [] Metric.view = []
    ∧ claim_day_filtered c4T ⟨4, 1, 5⟩ ⟨4, 1, 5⟩ = c4T := by
  exact ⟨by decide, by decide, by decide⟩

/-! ## Calendar lemmas (claim C7) -/

theorem leapsBefore_succ (y : Nat) :
    leapsBefore (y + 1) = leapsBefore y + (if isLeap y then 1 else 0) := by
  have hiff : isLeap y = true ↔ ((y % 4 = 0 ∧ ¬ y % 100 = 0) ∨ y % 400 = 0) := by
    unfold isLeap
    exact decide_eq_true_iff
  unfold leapsBefore
  by_cases h : isLeap y
  · rw [if_pos h]
    have hp := hiff.mp h
    omega
  · rw [if_neg h]
    have hp : ¬ ((y % 4 = 0 ∧ ¬ y % 100 = 0) ∨ y % 400 = 0) := fun hc => h (hiff.mpr hc)
    omega

theorem leapsBefore_mono {y y' : Nat} (h : y ≤ y') : leapsBefore y ≤ leapsBefore y' := by
  induction y' with
  | zero =>
    have : y = 0 := by omega
    rw [this]
  | succ k ih =>
    rcases Nat.lt_or_ge y (k + 1) with hlt | hge
    · have h1 := ih (by omega)
      have h2 := leapsBefore_succ k
      split_ifs at h2 <;> omega
    · have : y = k + 1 := by omega
      rw [this]

theorem monthsBefore_succ (lp : Bool) (m : Nat) (h : m ≠ 0) :
    monthsBefore lp (m + 1) = monthsBefore lp m + monthLength lp m := by
  show monthsBefore lp m + (if m = 0 then 0 else monthLength lp m) = _
  rw [if_neg h]

theorem monthLength_pos (lp : Bool) (m : Nat) : 1 ≤ monthLength lp m := by
  unfold monthLength
  split_ifs <;> omega

theorem monthsBefore_mono (lp : Bool) {m m' : Nat} (h : m ≤ m') :
    monthsBefore lp m ≤ monthsBefore lp m' := by
  induction m' with
  | zero =>
    have : m = 0 := by omega
    rw [this]
  | succ k ih =>
    rcases Nat.lt_or_ge m (k + 1) with hlt | hge
    · refine le_trans (ih (by omega)) ?_
      show monthsBefore lp k ≤ monthsBefore lp k + _
      exact Nat.le_add_right _ _
    · have : m = k + 1 := by omega
      rw [this]

theorem monthsBefore_13 (lp : Bool) : monthsBefore lp 13 = 365 + (if lp then 1 else 0) := by
  cases lp <;> rfl

theorem monthsBefore_1 (lp : Bool) : monthsBefore lp 1 = 0 := rfl

/-- Stepping to the next calendar day adds one to the ordinal. -/
theorem ordinal_succ (d : Date) (h : ValidDate d) : (d.succ).ordinal = d.ordinal + 1 := by
  rcases h with ⟨h1, h2, h3, h4⟩
  unfold Date.succ
  split_ifs with hd hm
  · unfold Date.ordinal
    dsimp only
    omega
  · unfold Date.ordinal
    dsimp only
    rw [monthsBefore_succ _ _ (by omega)]
    omega
  · have hm12 : d.month = 12 := by omega
    unfold Date.ordinal
    dsimp only
    rw [hm12] at hd h4 ⊢
    have h13 := monthsBefore_13 (isLeap d.year)
    have hstep : monthsBefore (isLeap d.year) 13
        = monthsBefore (isLeap d.year) 12 + monthLength (isLeap d.year) 12 :=
      monthsBefore_succ (isLeap d.year) 12 (by omega)
    have hml12 : monthLength (isLeap d.year) 12 = 31 := rfl
    have hls := leapsBefore_succ d.year
    have hmb1 := monthsBefore_1 (isLeap (d.year + 1))
    rw [hml12] at hd h4 hstep
    split_ifs at h13 hls <;> omega

/-- The ordinal is strictly monotone in the calendar order on valid dates. -/
theorem ordinal_lt_of_lt (a b : Date) (ha : ValidDate a) (hb : ValidDate b)
    (h : a.year < b.year
      ∨ (a.year = b.year ∧ (a.month < b.month
        ∨ (a.month = b.month ∧ a.day < b.day)))) :
    a.ordinal < b.ordinal := by
  rcases ha with ⟨ha1, ha2, ha3, ha4⟩
  rcases hb with ⟨hb1, hb2, hb3, hb4⟩
  rcases h with hy | ⟨hy, hm | ⟨hm, hd⟩⟩
  · -- different years
    have hstep := monthsBefore_succ (isLeap a.year) a.month (by omega)
    have hmono := monthsBefore_mono (isLeap a.year) (show a.month + 1 ≤ 13 by omega)
    have h13 := monthsBefore_13 (isLeap a.year)
    have hls := leapsBefore_succ a.year
    have hlm : leapsBefore (a.year + 1) ≤ leapsBefore b.year := leapsBefore_mono (by omega)
    have hmbb : 0 ≤ monthsBefore (isLeap b.year) b.month := Nat.zero_le _
    unfold Date.ordinal
    split_ifs at h13 hls <;> omega
  · -- same year, different months
    have hstep := monthsBefore_succ (isLeap a.year) a.month (by omega)
    have hmono := monthsBefore_mono (isLeap a.year) (show a.month + 1 ≤ b.month by omega)
    unfold Date.ordinal
    rw [← hy]
    omega
  · -- same year, same month
    unfold Date.ordinal
    rw [← hy, ← hm]
    omega

/-- The ordinal is injective on valid dates. -/
theorem ordinal_inj (a b : Date) (ha : ValidDate a) (hb : ValidDate b)
    (h : a.ordinal = b.ordinal) : a = b := by
  by_contra hne
  have hfields : ¬ (a.year = b.year ∧ a.month = b.month ∧ a.day = b.day) := by
    intro hc
    apply hne
    obtain ⟨ay, am, ad⟩ := a
    obtain ⟨by', bm, bd⟩ := b
    simp only at hc
    rw [hc.1, hc.2.1, hc.2.2]
  have htri : (a.year < b.year
        ∨ (a.year = b.year ∧ (a.month < b.month ∨ (a.month = b.month ∧ a.day < b.day))))
      ∨ (b.year < a.year
        ∨ (b.year = a.year ∧ (b.month < a.month ∨ (b.month = a.month ∧ b.day < a.day)))) := by
    omega
  rcases htri with h1 | h1
  · exact absurd h (Nat.ne_of_lt (ordinal_lt_of_lt a b ha hb h1))
  · exact absurd h.symm (Nat.ne_of_lt (ordinal_lt_of_lt b a hb ha h1))

theorem validDate_succ (d : Date) (h : ValidDate d) : ValidDate d.succ := by
  rcases h with ⟨h1, h2, h3, h4⟩
  unfold Date.succ
  split_ifs with hd hm
  · exact ⟨h1, h2, by dsimp only; omega, by dsimp only; omega⟩
  · exact ⟨by dsimp only; omega, by dsimp only; omega, by dsimp only; omega,
      by dsimp only; exact monthLength_pos _ _⟩
  · exact ⟨by dsimp only; omega, by dsimp only; omega, by dsimp only; omega,
      by dsimp only; exact monthLength_pos _ _⟩

theorem dateAfter_spec (d : Date) (h : ValidDate d) :
    ∀ i : Nat, ValidDate (dateAfter d i) ∧ (dateAfter d i).ordinal = d.ordinal + i := by
  intro i
  induction i with
  | zero => exact ⟨h, rfl⟩
  | succ k ih =>
    refine ⟨validDate_succ _ ih.1, ?_⟩
    show ((dateAfter d k).succ).ordinal = d.ordinal + (k + 1)
    rw [ordinal_succ _ ih.1, ih.2]
    omega

/-! ## Claim C7: the per-user daily resample -/

theorem minDateAux_spec (l : List Row) : ∀ d0 : Date,
    ((minDateAux l d0 = d0 ∨ ∃ r ∈ l, minDateAux l d0 = eventDate r)
      ∧ (minDateAux l d0).ordinal ≤ d0.ordinal
      ∧ ∀ r ∈ l, (minDateAux l d0).ordinal ≤ (eventDate r).ordinal) := by
  induction l with
  | nil =>
    intro d0
    refine ⟨Or.inl rfl, le_refl _, ?_⟩
    intro r hr
    cases hr
  | cons a l ih =>
    intro d0
    have hfold : minDateAux (a :: l) d0
        = minDateAux l (if (eventDate a).ordinal < d0.ordinal then eventDate a else d0) := by
      unfold minDateAux
      rw [List.foldl_cons]
    by_cases hca : (eventDate a).ordinal < d0.ordinal
    · rcases ih (eventDate a) with ⟨hm, hle, hall⟩
      rw [if_pos hca] at hfold
      refine ⟨?_, ?_, ?_⟩
      · rcases hm with hm | ⟨r, hr, hm⟩
        · exact Or.inr ⟨a, List.mem_cons_self _ _, by rw [hfold]; exact hm⟩
        · exact Or.inr ⟨r, List.mem_cons_of_mem _ hr, by rw [hfold]; exact hm⟩
      · rw [hfold]
        omega
      · intro r hr
        rw [hfold]
        rcases List.mem_cons.mp hr with rfl | hr2
        · exact hle
        · exact hall r hr2
    · rcases ih d0 with ⟨hm, hle, hall⟩
      rw [if_neg hca] at hfold
      refine ⟨?_, ?_, ?_⟩
      · rcases hm with hm | ⟨r, hr, hm⟩
        · exact Or.inl (by rw [hfold]; exact hm)
        · exact Or.inr ⟨r, List.mem_cons_of_mem _ hr, by rw [hfold]; exact hm⟩
      · rw [hfold]
        exact hle
      · intro r hr
        rw [hfold]
        rcases List.mem_cons.mp hr with rfl | hr2
        · omega
        · exact hall r hr2

theorem maxDateAux_spec (l : List Row) : ∀ d0 : Date,
    ((maxDateAux l d0 = d0 ∨ ∃ r ∈ l, maxDateAux l d0 = eventDate r)
      ∧ d0.ordinal ≤ (maxDateAux l d0).ordinal
      ∧ ∀ r ∈ l, (eventDate r).ordinal ≤ (maxDateAux l d0).ordinal) := by
  induction l with
  | nil =>
    intro d0
    refine ⟨Or.inl rfl, le_refl _, ?_⟩
    intro r hr
    cases hr
  | cons a l ih =>
    intro d0
    have hfold : maxDateAux (a :: l) d0
        = maxDateAux l (if d0.ordinal < (eventDate a).ordinal then eventDate a else d0) := by
      unfold maxDateAux
      rw [List.foldl_cons]
    by_cases hca : d0.ordinal < (eventDate a).ordinal
    · rcases ih (eventDate a) with ⟨hm, hle, hall⟩
      rw [if_pos hca] at hfold
      refine ⟨?_, ?_, ?_⟩
      · rcases hm with hm | ⟨r, hr, hm⟩
        · exact Or.inr ⟨a, List.mem_cons_self _ _, by rw [hfold]; exact hm⟩
        · exact Or.inr ⟨r, List.mem_cons_of_mem _ hr, by rw [hfold]; exact hm⟩
      · rw [hfold]
        omega
      · intro r hr
        rw [hfold]
        rcases List.mem_cons.mp hr with rfl | hr2
        · exact hle
        · exact hall r hr2
    · rcases ih d0 with ⟨hm, hle, hall⟩
      rw [if_neg hca] at hfold
      refine ⟨?_, ?_, ?_⟩
      · rcases hm with hm | ⟨r, hr, hm⟩
        · exact Or.inl (by rw [hfold]; exact hm)
        · exact Or.inr ⟨r, List.mem_cons_of_mem _ hr, by rw [hfold]; exact hm⟩
      · rw [hfold]
        exact hle
      · intro r hr
        rw [hfold]
        rcases List.mem_cons.mp hr with rfl | hr2
        · omega
        · exact hall r hr2

theorem minDateAux_valid (rows : List Row) (d0 : Date) (hd0 : ValidDate d0)
    (hval : ∀ r ∈ rows, ValidDate (eventDate r)) : ValidDate (minDateAux rows d0) := by
  rcases (minDateAux_spec rows d0).1 with hm | ⟨r, hr, hm⟩
  · rw [hm]; exact hd0
  · rw [hm]; exact hval r hr

/-- The day-resampled purchase series over `rows` sums to the purchase total
    of `rows`: the enumerated day range covers every row's day exactly once. -/
theorem resampleDaily_sum (rows : List Row) (d0 : Date) (hd0 : ValidDate d0)
    (hval : ∀ r ∈ rows, ValidDate (eventDate r)) :
    ((resampleDaily rows d0).map (fun x => x.2)).sum = total_purchases rows := by
  have hminval := minDateAux_valid rows d0 hd0 hval
  rcases minDateAux_spec rows d0 with ⟨_, _, hminall⟩
  rcases maxDateAux_spec rows d0 with ⟨_, _, hmaxall⟩
  unfold resampleDaily
  rw [List.map_map]
  have hcomp : ((fun x : Date × Nat => x.2) ∘ fun i =>
      (dateAfter (minDateAux rows d0) i,
        total_purchases (rows.filter (fun r =>
          decide (eventDate r = dateAfter (minDateAux rows d0) i)))))
      = fun i => total_purchases (rows.filter (fun r =>
          decide (eventDate r = dateAfter (minDateAux rows d0) i))) := rfl
  rw [hcomp]
  have hree : (List.range
        ((maxDateAux rows d0).ordinal - (minDateAux rows d0).ordinal + 1)).map
      (fun i => total_purchases (rows.filter (fun r =>
        decide (eventDate r = dateAfter (minDateAux rows d0) i))))
      = ((List.range
          ((maxDateAux rows d0).ordinal - (minDateAux rows d0).ordinal + 1)).map
            (dateAfter (minDateAux rows d0))).map
        (fun dd => total_purchases (rows.filter (fun r =>
          decide (eventDate r = dd)))) := by
    rw [List.map_map]
    rfl
  rw [hree]
  have hnodup : (((List.range
      ((maxDateAux rows d0).ordinal - (minDateAux rows d0).ordinal + 1)).map
        (dateAfter (minDateAux rows d0)))).Nodup := by
    refine List.Nodup.map_on ?_ (List.nodup_range _)
    intro i hi j hj hij
    have h1 := (dateAfter_spec _ hminval i).2
    have h2 := (dateAfter_spec _ hminval j).2
    have h3 := congrArg Date.ordinal hij
    omega
  have hcov : ∀ r ∈ rows, eventDate r ∈ (List.range
      ((maxDateAux rows d0).ordinal - (minDateAux rows d0).ordinal + 1)).map
        (dateAfter (minDateAux rows d0)) := by
    intro r hr
    have hvr := hval r hr
    have h1 := hminall r hr
    have h2 := hmaxall r hr
    have hi := dateAfter_spec _ hminval
      ((eventDate r).ordinal - (minDateAux rows d0).ordinal)
    refine List.mem_map.mpr
      ⟨(eventDate r).ordinal - (minDateAux rows d0).ordinal, ?_, ?_⟩
    · rw [List.mem_range]
      omega
    · exact ordinal_inj _ _ hi.1 hvr (by omega)
  exact sum_groups eventDate (fun r => r.purchase) _ hnodup rows hcov

/-- The returned days are exactly the calendar days between the earliest and
    the latest day among `rows`, inclusive: zero-fill with no gaps. -/
theorem resampleDaily_days (rows : List Row) (d0 : Date) (hd0 : ValidDate d0)
    (hval : ∀ r ∈ rows, ValidDate (eventDate r)) (d : Date) (hd : ValidDate d) :
    (∃ x ∈ resampleDaily rows d0, x.1 = d)
      ↔ ((minDateAux rows d0).ordinal ≤ d.ordinal
        ∧ d.ordinal ≤ (maxDateAux rows d0).ordinal) := by
  have hminval := minDateAux_valid rows d0 hd0 hval
  have hminmax : (minDateAux rows d0).ordinal ≤ (maxDateAux rows d0).ordinal := by
    rcases minDateAux_spec rows d0 with ⟨_, hminle, _⟩
    rcases maxDateAux_spec rows d0 with ⟨_, hmaxge, _⟩
    omega
  unfold resampleDaily
  constructor
  · rintro ⟨x, hx, hx1⟩
    rcases List.mem_map.mp hx with ⟨i, hi, hxi⟩
    rw [List.mem_range] at hi
    have hia := dateAfter_spec _ hminval i
    have hdi : d = dateAfter (minDateAux rows d0) i := by
      rw [← hx1, ← hxi]
    have hord : d.ordinal = (minDateAux rows d0).ordinal + i := by
      rw [hdi, hia.2]
    omega
  · rintro ⟨h1, h2⟩
    have hia := dateAfter_spec _ hminval (d.ordinal - (minDateAux rows d0).ordinal)
    refine ⟨(dateAfter (minDateAux rows d0) (d.ordinal - (minDateAux rows d0).ordinal),
        total_purchases (rows.filter (fun r => decide (eventDate r
          = dateAfter (minDateAux rows d0)
            (d.ordinal - (minDateAux rows d0).ordinal))))), ?_, ?_⟩
    · refine List.mem_map.mpr ⟨d.ordinal - (minDateAux rows d0).ordinal, ?_, rfl⟩
      rw [List.mem_range]
      omega
    · show dateAfter (minDateAux rows d0) (d.ordinal - (minDateAux rows d0).ordinal) = d
      exact ordinal_inj _ _ hia.1 hd (by omega)

/-- C7: the per-user daily resample sums to the user's total purchase count
    in the base table (first conjunct), and — when the user has rows — the
    series contains exactly one bucket for **every** calendar day between
    the user's first and last event day inclusive, so absent days are
    present (zero-filled) and there are no gaps (second conjunct). -/
theorem c7_daily (t : List Row) (u : Nat) (h : ∀ r ∈ t, ValidDate (eventDate r)) :
    ((purchase_frequency t u).map (fun x => x.2)).sum = total_purchases (userRows t u)
    ∧ (userRows t u ≠ [] → ∀ d : Date, ValidDate d →
        ((∃ x ∈ purchase_frequency t u, x.1 = d) ↔
          ((firstUserDate t u).ordinal ≤ d.ordinal
            ∧ d.ordinal ≤ (lastUserDate t u).ordinal))) := by
  cases hu : userRows t u with
  | nil =>
    refine ⟨?_, fun hne => absurd rfl hne⟩
    have hpf : purchase_frequency t u = [] := by
      unfold purchase_frequency
      rw [hu]
    rw [hpf]
    rfl
  | cons r0 rest =>
    have hsub : ∀ r ∈ r0 :: rest, r ∈ t := by
      intro r hr
      rw [← hu] at hr
      exact (List.mem_filter.mp hr).1
    have hval : ∀ r ∈ r0 :: rest, ValidDate (eventDate r) := fun r hr => h r (hsub r hr)
    have hr0v : ValidDate (eventDate r0) := hval r0 (List.mem_cons_self _ _)
    have hpf : purchase_frequency t u = resampleDaily (r0 :: rest) (eventDate r0) := by
      unfold purchase_frequency
      rw [hu]
    have hfd : firstUserDate t u = minDateAux (r0 :: rest) (eventDate r0) := by
      unfold firstUserDate
      rw [hu]
    have hld : lastUserDate t u = maxDateAux (r0 :: rest) (eventDate r0) := by
      unfold lastUserDate
      rw [hu]
    constructor
    · rw [hpf]
      exact resampleDaily_sum (r0 :: rest) (eventDate r0) hr0v hval
    · intro _ d hd
      rw [hpf, hfd, hld]
      exact resampleDaily_days (r0 :: rest) (eventDate r0) hr0v hval d hd

def w7T : List Row :=
  [⟨⟨⟨4, 1, 1⟩, 10⟩, 1, some ("a.b"), some ("X"), 10, 7, 1, 2⟩,
   ⟨⟨⟨4, 1, 3⟩, 20⟩, 1, some ("a.b"), some ("X"), 10, 7, 0, 3⟩,
   ⟨⟨⟨4, 1, 2⟩, 0⟩, 9, some ("a.c"), some ("Y"), 5, 8, 1, 1⟩]

/-- C7 witness: user 7 has purchases on 0004-01-01 and 0004-01-03 only; the
    series sums to the user's 5 purchases and the gap day 0004-01-02 (which
    has only another user's row) is still present in the series. -/
theorem c7_daily_witness :
    ((purchase_frequency w7T 7).map (fun x => x.2)).sum = total_purchases (userRows w7T 7)
    ∧ (∃ x ∈ purchase_frequency w7T 7, x.1 = ⟨4, 1, 2⟩) :=
  ⟨(c7_daily w7T 7 (by decide)).1,
   ((c7_daily w7T 7 (by decide)).2 (by decide) ⟨4, 1, 2⟩ (by decide)).mpr ⟨by decide, by decide⟩⟩
